import Mathlib

/-!
Verification of the repcalc program (src/main.rs) against its specification.

The program works over arbitrary-precision complex floating point numbers
(rug::Complex); the embedding idealises them as the exact complex numbers ℂ,
with the complex square root modelled as the principal branch (a power with
exponent one half), matching the substrate's sqrt on the principal branch.
Exact rational arithmetic (rug::Rational) is embedded as ℚ, whose values are
kept in reduced canonical form exactly as rug does.  The unbounded search
loop of the Stern-Brocot locator is embedded with explicit fuel: a result of
none means the loop has not returned within the given number of iterations.
-/

noncomputable section

/-- Model of the complex square root used by the substrate (rug sqrt on
complex numbers): the principal branch, expressed as the complex power with
exponent one half.  It satisfies csqrt w ^ 2 = w for every w. -/
def csqrt (w : ℂ) : ℂ := w ^ ((2 : ℂ)⁻¹)

/-- The 2x2 complex matrix type, struct M of src/main.rs line 7: the array
[a, b, c, d] represents the matrix [[a, b], [c, d]]. -/
@[ext]
structure M where
  a : ℂ
  b : ℂ
  c : ℂ
  d : ℂ

/-- Generator constructor rho_a, src/main.rs lines 11-16: with
c = 1 / sqrt(z^2 - 1), the matrix [[c z, c], [c, c z]].  The precision
argument is dropped because the embedding computes exactly. -/
def rho_a (z : ℂ) : M :=
  M.mk ((csqrt (z ^ 2 - 1))⁻¹ * z) (csqrt (z ^ 2 - 1))⁻¹ (csqrt (z ^ 2 - 1))⁻¹
    ((csqrt (z ^ 2 - 1))⁻¹ * z)

/-- The intermediate value y = -z / sqrt(z^2 - 1) computed inside rho_b,
src/main.rs line 21. -/
def rho_b_y (z : ℂ) : ℂ := -z / csqrt (z ^ 2 - 1)

/-- Generator constructor rho_b, src/main.rs lines 18-28: with
y = -z / sqrt(z^2 - 1) and c = 1 / sqrt(y^2 - 1), the matrix
[[c y, c i], [-c i, c y]]. -/
def rho_b (z : ℂ) : M :=
  M.mk ((csqrt (rho_b_y z ^ 2 - 1))⁻¹ * rho_b_y z)
    ((csqrt (rho_b_y z ^ 2 - 1))⁻¹ * Complex.I)
    (-((csqrt (rho_b_y z ^ 2 - 1))⁻¹ * Complex.I))
    ((csqrt (rho_b_y z ^ 2 - 1))⁻¹ * rho_b_y z)

/-- Determinant, src/main.rs lines 31-34: a d - b c. -/
def M.det (m : M) : ℂ := m.a * m.d - m.b * m.c

/-- Identity matrix, src/main.rs lines 36-40. -/
def M.identity : M := M.mk 1 0 0 1

/-- Matrix inverse as the code computes it, src/main.rs lines 42-46: the
code multiplies the adjugate [[d, -b], [-c, a]] by det itself (not by its
reciprocal). -/
def M.inv (m : M) : M :=
  M.mk (m.det * m.d) (m.det * -m.b) (m.det * -m.c) (m.det * m.a)

/-- Matrix multiplication, src/main.rs lines 77-86. -/
def M.mul (m other : M) : M :=
  M.mk (m.a * other.a + m.b * other.c) (m.a * other.b + m.b * other.d)
    (m.c * other.a + m.d * other.c) (m.c * other.b + m.d * other.d)

/-- Product of a sequence of matrices, src/main.rs lines 48-55: seeds with
ms[0] and folds mul over the remaining elements left to right.  Indexing
ms[0] on an empty vector is a panic, modelled as none. -/
def M.product (ms : List M) : Option M :=
  match ms with
  | [] => none
  | m :: rest => some (rest.foldl M.mul m)

/-- Definition following the spec's words for inverse (section 4.2):
"(1/det)·[[d,−b],[−c,a]]", the true matrix inverse, kept for comparison
with the code's M.inv. -/
def inverseSpecM (m : M) : M :=
  M.mk (m.det⁻¹ * m.d) (m.det⁻¹ * -m.b) (m.det⁻¹ * -m.c) (m.det⁻¹ * m.a)

/-- Dominant eigenpair, src/main.rs lines 57-75: with t = a + d and
x = sqrt(t^2 - 4), the candidates are lambda1 = (t - x)/2 and
lambda2 = (t + x)/2; cmp_abs comparing lambda1 with lambda2 yields Less
exactly when the absolute value of lambda1 is smaller, in which case the
code returns (lambda2, [b, lambda2 - a]); on Equal or Greater it returns
(lambda1, [lambda1 - d, c]). -/
def M.dominant_eigenvector (m : M) : ℂ × ℂ × ℂ :=
  if Complex.abs ((m.a + m.d - csqrt ((m.a + m.d) ^ 2 - 4)) / 2) <
      Complex.abs ((m.a + m.d + csqrt ((m.a + m.d) ^ 2 - 4)) / 2) then
    ((m.a + m.d + csqrt ((m.a + m.d) ^ 2 - 4)) / 2, m.b,
      (m.a + m.d + csqrt ((m.a + m.d) ^ 2 - 4)) / 2 - m.a)
  else
    ((m.a + m.d - csqrt ((m.a + m.d) ^ 2 - 4)) / 2,
      (m.a + m.d - csqrt ((m.a + m.d) ^ 2 - 4)) / 2 - m.d, m.c)

/-- The tolerance 0.000001 of src/main.rs line 90 (the absolute value of the
complex epsilon constructed there). -/
def epsilon : ℝ := 1 / 1000000

/-- Eigenvector self-check, src/main.rs lines 88-98.  The code computes
u = M v, the observed eigenvalue c = ux / x, and then
(c * y - uy).cmp_abs(epsilon).unwrap() == Less.  At the floating-point
substrate, dividing by x = 0 with ux = 0 yields NaN components (0/0), the
subsequent cmp_abs on a NaN returns None, and unwrap panics; this panic is
modelled as none.  When x = 0 but ux is nonzero the quotient is infinite;
an infinity times y = 0 is again NaN (modelled none), while for y nonzero
the compared value is infinite, cmp_abs answers Greater, and the check
returns false.  For x nonzero the computation is finite and exact. -/
def M.is_eigenvector (m : M) (x y : ℂ) : Option Bool :=
  if x = 0 then
    if m.a * x + m.b * y = 0 then none
    else if y = 0 then none
    else some false
  else if Complex.abs ((m.a * x + m.b * y) / x * y - (m.c * x + m.d * y)) < epsilon then
    some true
  else some false

/-- Matrices reachable from the generator constructors at parameter z by
multiplication and inversion, the closure described in spec section 3.  The
base cases carry the validity conditions of the claim: z distinct from +1
and -1 (z^2 - 1 nonzero) and the intermediate y distinct from +1 and -1. -/
inductive Reachable (z : ℂ) : M → Prop where
  | genA : z ^ 2 - 1 ≠ 0 → Reachable z (rho_a z)
  | genB : z ^ 2 - 1 ≠ 0 → rho_b_y z ^ 2 - 1 ≠ 0 → Reachable z (rho_b z)
  | mul (m1 m2 : M) : Reachable z m1 → Reachable z m2 → Reachable z (m1.mul m2)
  | inv (m : M) : Reachable z m → Reachable z m.inv

end

/-- Extended rationals, src/main.rs lines 146-149: an exact rational or the
symbolic Infinity. -/
inductive ExtendedRational : Type where
  | R (r : ℚ)
  | Infinity
deriving DecidableEq

/-- Numerator, src/main.rs lines 181-186: Infinity has numerator 1. -/
def ExtendedRational.numer : ExtendedRational → ℤ
  | ExtendedRational.R r => r.num
  | ExtendedRational.Infinity => 1

/-- Denominator, src/main.rs lines 188-193: Infinity has denominator 0. -/
def ExtendedRational.denom : ExtendedRational → ℤ
  | ExtendedRational.R r => (r.den : ℤ)
  | ExtendedRational.Infinity => 0

/-- Farey mediant, src/main.rs lines 195-203: sum of numerators over sum of
denominators; a zero denominator yields Infinity, otherwise the rational is
built in canonical reduced form exactly as rug Rational::from does. -/
def ExtendedRational.mediant (e f : ExtendedRational) : ExtendedRational :=
  if e.denom + f.denom = 0 then ExtendedRational.Infinity
  else ExtendedRational.R (Rat.divInt (e.numer + f.numer) (e.denom + f.denom))

/-- Strict order on extended rationals, the Less cases of partial_cmp in
src/main.rs lines 161-170: Infinity is the unique maximum. -/
def ExtendedRational.lt : ExtendedRational → ExtendedRational → Prop
  | ExtendedRational.R l, ExtendedRational.R h => l < h
  | ExtendedRational.R _, ExtendedRational.Infinity => True
  | ExtendedRational.Infinity, _ => False

instance : LT ExtendedRational :=
  ⟨ExtendedRational.lt⟩

instance (e f : ExtendedRational) : Decidable (e < f) :=
  match e, f with
  | ExtendedRational.R l, ExtendedRational.R h => inferInstanceAs (Decidable (l < h))
  | ExtendedRational.R _, ExtendedRational.Infinity => Decidable.isTrue trivial
  | ExtendedRational.Infinity, _ => Decidable.isFalse id

noncomputable section

/-- The search loop of stern_brocot_word, src/main.rs lines 221-235, with
explicit fuel: none means the loop has not returned within fuel
iterations (the Rust loop simply keeps running). -/
def sbLoop (fuel : ℕ) (q low high : ExtendedRational) (low_m high_m : M) : Option M :=
  match fuel with
  | 0 => none
  | Nat.succ fuel =>
    if low.mediant high < q then
      sbLoop fuel q (low.mediant high) high (low_m.mul high_m) high_m
    else if q < low.mediant high then
      sbLoop fuel q low (low.mediant high) low_m (low_m.mul high_m)
    else
      some (low_m.mul high_m)

/-- Stern-Brocot locator, src/main.rs lines 206-236: Infinity returns b at
once, the rational 1 returns a at once, and otherwise the search starts
from low = 0 paired with a and high = Infinity paired with b. -/
def stern_brocot_word (fuel : ℕ) (q : ExtendedRational) (a b : M) : Option M :=
  match q with
  | ExtendedRational.Infinity => some b
  | ExtendedRational.R x =>
    if x = 1 then some a
    else sbLoop fuel (ExtendedRational.R x) (ExtendedRational.R 0) ExtendedRational.Infinity a b

end

/-- Construction of the target from the command line pair (p, q),
src/main.rs lines 277-285: q = 0 denotes Infinity, otherwise the exact
rational p/q. -/
def mkTarget (p q : ℕ) : ExtendedRational :=
  if q = 0 then ExtendedRational.Infinity
  else ExtendedRational.R (Rat.divInt (p : ℤ) (q : ℤ))

/-- Word validation, src/main.rs lines 101-108: accepts exactly the strings
over the four symbols; the string is modelled as its list of characters.
A result of none is a rejection at the input boundary (clap exits before
main's body runs). -/
def parse_word (input : List Char) : Option (List Char) :=
  if input.all fun ch => ch == 'a' || ch == 'b' || ch == 'A' || ch == 'B' then some input
  else none

noncomputable section

/-- Symbol-to-matrix mapping of the explicit-word mode, src/main.rs lines
269-276.  The catch-all arm is unreachable for validated input. -/
def char_matrix (a b a_inv b_inv : M) (ch : Char) : M :=
  if ch = 'a' then a else if ch = 'b' then b else if ch = 'A' then a_inv else b_inv

/-- Explicit-word mode of the driver: validation by parse_word (outer none:
the input never reaches main's body), then M.product over the mapped
symbols (inner none: the indexing panic inside product). -/
def run_word_mode (a b a_inv b_inv : M) (input : List Char) : Option (Option M) :=
  (parse_word input).map fun w => M.product (w.map (char_matrix a b a_inv b_inv))

end

/-- Integer cross product measuring how far the finite bound e lies below
the target t; positive exactly when e is strictly below t. -/
def XL (t : ℚ) (e : ExtendedRational) : ℤ := t.num * e.denom - e.numer * (t.den : ℤ)

/-- Integer cross product measuring how far the bound e lies above the
target t; positive exactly when t is strictly below e. -/
def XH (t : ℚ) (e : ExtendedRational) : ℤ := e.numer * (t.den : ℤ) - t.num * e.denom

/-- Bounds that are strictly positive (or Infinity); the high bound of the
search for target 0 always has this shape. -/
def posER : ExtendedRational → Prop
  | ExtendedRational.R r => 0 < r
  | ExtendedRational.Infinity => True

theorem csqrt_sq (w : ℂ) : csqrt w ^ 2 = w := by
  have h := Complex.cpow_nat_inv_pow w (n := 2) (by norm_num)
  simp only [csqrt]
  rw [show ((2 : ℂ))⁻¹ = ((2 : ℕ) : ℂ)⁻¹ by norm_num]
  exact h

theorem csqrt_zero : csqrt 0 = 0 :=
  Complex.zero_cpow (by norm_num)

theorem csqrt_ne_zero {w : ℂ} (h : w ≠ 0) : csqrt w ≠ 0 := by
  intro h0
  apply h
  rw [← csqrt_sq w, h0]
  norm_num

theorem M.det_mul (m n : M) : (m.mul n).det = m.det * n.det := by
  simp only [M.mul, M.det]
  ring

theorem M.det_inv_eq (m : M) : m.inv.det = m.det ^ 3 := by
  simp only [M.inv, M.det]
  ring

theorem det_rho_a (z : ℂ) (h : z ^ 2 - 1 ≠ 0) : (rho_a z).det = 1 := by
  have hs : csqrt (z ^ 2 - 1) ^ 2 = z ^ 2 - 1 := csqrt_sq _
  have hne : csqrt (z ^ 2 - 1) ≠ 0 := csqrt_ne_zero h
  simp only [rho_a, M.det]
  field_simp
  linear_combination -hs

theorem det_rho_b (z : ℂ) (h : rho_b_y z ^ 2 - 1 ≠ 0) : (rho_b z).det = 1 := by
  have hs : csqrt (rho_b_y z ^ 2 - 1) ^ 2 = rho_b_y z ^ 2 - 1 := csqrt_sq _
  have hne : csqrt (rho_b_y z ^ 2 - 1) ≠ 0 := csqrt_ne_zero h
  simp only [rho_b, M.det]
  field_simp
  linear_combination -hs

theorem mul_inv_identity (m : M) (h : m.det = 1) : m.mul m.inv = M.identity := by
  have hdet : m.a * m.d - m.b * m.c = 1 := by
    simpa [M.det] using h
  apply M.ext
  all_goals simp only [M.mul, M.inv, M.identity, M.det]
  · linear_combination (m.a * m.d - m.b * m.c + 1) * hdet
  · ring
  · ring
  · linear_combination (m.a * m.d - m.b * m.c + 1) * hdet

/-- C1 counterexample: at the matrix [[2,0],[0,1]], whose determinant 2 is
nonzero, the code's inverse differs from (1/det)·[[d,−b],[−c,a]] and is not
a true inverse: the code multiplies the adjugate by det instead of
dividing by it. -/
theorem inv_not_true_inverse_cex :
    (M.mk 2 0 0 1).det ≠ 0 ∧
    M.inv (M.mk 2 0 0 1) ≠ inverseSpecM (M.mk 2 0 0 1) ∧
    M.mul (M.mk 2 0 0 1) (M.inv (M.mk 2 0 0 1)) ≠ M.identity := by
  refine ⟨?_, ?_, ?_⟩
  · simp only [M.det]
    norm_num
  · intro hEq
    have h1 := congrArg M.a hEq
    simp only [M.inv, inverseSpecM, M.det] at h1
    norm_num at h1
  · intro hEq
    have h1 := congrArg M.a hEq
    simp only [M.mul, M.inv, M.identity, M.det] at h1
    norm_num at h1

/-- C1 amended: the code's inverse is det·[[d,−b],[−c,a]]; whenever the
determinant squares to 1 — in particular for every unit-determinant matrix
of this program — this coincides with (1/det)·[[d,−b],[−c,a]] and is the
true two-sided matrix inverse. -/
theorem inv_correct_of_unit_det (m : M) (h : m.det ^ 2 = 1) :
    m.inv = inverseSpecM m ∧ m.mul m.inv = M.identity ∧ m.inv.mul m = M.identity := by
  have hdet : (m.a * m.d - m.b * m.c) ^ 2 = 1 := by
    simpa [M.det] using h
  have hne : m.a * m.d - m.b * m.c ≠ 0 := by
    intro h0
    rw [h0] at hdet
    norm_num at hdet
  refine ⟨?_, ?_, ?_⟩
  · have hmul : (m.a * m.d - m.b * m.c) * (m.a * m.d - m.b * m.c) = 1 := by
      linear_combination hdet
    have hinv : (m.a * m.d - m.b * m.c)⁻¹ = m.a * m.d - m.b * m.c :=
      inv_eq_of_mul_eq_one_right hmul
    apply M.ext <;> simp only [M.inv, inverseSpecM, M.det] <;> rw [hinv]
  · apply M.ext
    all_goals simp only [M.mul, M.inv, M.identity, M.det]
    · linear_combination hdet
    · ring
    · ring
    · linear_combination hdet
  · apply M.ext
    all_goals simp only [M.mul, M.inv, M.identity, M.det]
    · linear_combination hdet
    · ring
    · ring
    · linear_combination hdet

/-- C1 witness: the matrix [[2,3],[1,2]] has determinant 1, so its squared
determinant is 1 and the code's inverse is its true inverse there. -/
theorem inv_correct_of_unit_det_witness :
    (M.mk 2 3 1 2).det ^ 2 = 1 ∧
    M.inv (M.mk 2 3 1 2) = inverseSpecM (M.mk 2 3 1 2) ∧
    M.mul (M.mk 2 3 1 2) (M.inv (M.mk 2 3 1 2)) = M.identity := by
  have h : (M.mk 2 3 1 2).det ^ 2 = 1 := by
    simp only [M.det]
    norm_num
  exact ⟨h, (inv_correct_of_unit_det _ h).1, (inv_correct_of_unit_det _ h).2.1⟩

/-- C3: at the invalid parameter z = 1 the generator constructor does not
fail: it is a total function with no error branch, and in the exact model
it returns the zero matrix (the floating-point substrate returns non-finite
sentinel entries), whose determinant is 0, which then flows into all
downstream computation. -/
theorem rho_a_at_one_no_error :
    rho_a 1 = M.mk 0 0 0 0 ∧ (rho_a 1).det = 0 := by
  have h0 : ((1 : ℂ) ^ 2 - 1) = 0 := by norm_num
  have he : rho_a 1 = M.mk 0 0 0 0 := by
    simp [rho_a, h0, csqrt_zero]
  exact ⟨he, by rw [he]; simp [M.det]⟩

/-- C5: for a unit-determinant matrix the dominant eigenpair routine forms
the candidates (t ± sqrt(t^2 − 4))/2, returns the plus candidate with
eigenvector (b, λ − a) exactly when its magnitude is strictly larger, and
otherwise — including the equal-magnitude tie — returns the minus
candidate with eigenvector (λ − d, c); the returned eigenvalue always has
the larger of the two magnitudes. -/
theorem dominant_eigenvector_spec (m : M) (_hdet : m.det = 1) :
    (Complex.abs ((m.a + m.d + csqrt ((m.a + m.d) ^ 2 - 4)) / 2) ≤
        Complex.abs ((m.a + m.d - csqrt ((m.a + m.d) ^ 2 - 4)) / 2) →
      m.dominant_eigenvector =
        ((m.a + m.d - csqrt ((m.a + m.d) ^ 2 - 4)) / 2,
          (m.a + m.d - csqrt ((m.a + m.d) ^ 2 - 4)) / 2 - m.d, m.c)) ∧
    (Complex.abs ((m.a + m.d - csqrt ((m.a + m.d) ^ 2 - 4)) / 2) <
        Complex.abs ((m.a + m.d + csqrt ((m.a + m.d) ^ 2 - 4)) / 2) →
      m.dominant_eigenvector =
        ((m.a + m.d + csqrt ((m.a + m.d) ^ 2 - 4)) / 2, m.b,
          (m.a + m.d + csqrt ((m.a + m.d) ^ 2 - 4)) / 2 - m.a)) ∧
    Complex.abs m.dominant_eigenvector.1 =
      max (Complex.abs ((m.a + m.d - csqrt ((m.a + m.d) ^ 2 - 4)) / 2))
        (Complex.abs ((m.a + m.d + csqrt ((m.a + m.d) ^ 2 - 4)) / 2)) := by
  by_cases hlt : Complex.abs ((m.a + m.d - csqrt ((m.a + m.d) ^ 2 - 4)) / 2) <
      Complex.abs ((m.a + m.d + csqrt ((m.a + m.d) ^ 2 - 4)) / 2)
  · refine ⟨fun hle => absurd hlt (not_lt.2 hle), fun _ => ?_, ?_⟩
    · simp only [M.dominant_eigenvector, if_pos hlt]
    · simp only [M.dominant_eigenvector, if_pos hlt]
      exact (max_eq_right hlt.le).symm
  · refine ⟨fun _ => ?_, fun hlt2 => absurd hlt2 hlt, ?_⟩
    · simp only [M.dominant_eigenvector, if_neg hlt]
    · simp only [M.dominant_eigenvector, if_neg hlt]
      exact (max_eq_left (not_lt.1 hlt)).symm

/-- C5 witness: the matrix [[2,1],[1,1]] has determinant 1 and its returned
dominant eigenvalue has the larger of the two candidate magnitudes. -/
theorem dominant_eigenvector_spec_witness :
    (M.mk 2 1 1 1).det = 1 ∧
    Complex.abs (M.dominant_eigenvector (M.mk 2 1 1 1)).1 =
      max (Complex.abs (((2 : ℂ) + 1 - csqrt (((2 : ℂ) + 1) ^ 2 - 4)) / 2))
        (Complex.abs (((2 : ℂ) + 1 + csqrt (((2 : ℂ) + 1) ^ 2 - 4)) / 2)) := by
  have h : (M.mk 2 1 1 1).det = 1 := by
    simp only [M.det]
    norm_num
  exact ⟨h, (dominant_eigenvector_spec (M.mk 2 1 1 1) h).2.2⟩

/-- C6: every matrix reachable from the generator constructors at a valid
parameter by multiplication and inversion has determinant exactly 1 in the
exact model. -/
theorem reachable_det_one (z : ℂ) (m : M) (h : Reachable z m) : m.det = 1 := by
  induction h with
  | genA h1 => exact det_rho_a z h1
  | genB h1 h2 => exact det_rho_b z h2
  | mul m1 m2 h1 h2 ih1 ih2 =>
    rw [M.det_mul, ih1, ih2, one_mul]
  | inv m h ih =>
    rw [M.det_inv_eq, ih, one_pow]

/-- C6 witness: z = 2 is a valid parameter and the generator rho_a built
from it has determinant 1. -/
theorem reachable_det_one_witness : Reachable 2 (rho_a 2) ∧ (rho_a 2).det = 1 := by
  have h : Reachable 2 (rho_a 2) := Reachable.genA (by norm_num)
  exact ⟨h, reachable_det_one 2 (rho_a 2) h⟩

/-- C7: the dominant eigenpair of the identity matrix is the eigenvalue 1
with the zero eigenvector (0,0), and on that degenerate vector the
self-check divides zero by zero: the floating-point comparison receives
NaN, cmp_abs yields None and unwrap panics (modelled none), aborting the
run instead of reporting the promised soft precision-insufficiency
warning. -/
theorem degenerate_self_check_panics :
    M.dominant_eigenvector M.identity = (1, 0, 0) ∧
    M.is_eigenvector M.identity 0 0 = none := by
  constructor
  · have h0 : ((M.identity.a + M.identity.d) ^ 2 - 4 : ℂ) = 0 := by
      norm_num [M.identity]
    simp only [M.dominant_eigenvector, h0, csqrt_zero, sub_zero, add_zero,
      lt_self_iff_false, if_false]
    norm_num [M.identity, Prod.ext_iff]
  · simp [M.is_eigenvector]

/-- C8 counterexample: the empty word passes validation (parse_word accepts
it), main then invokes product on the empty sequence, and product hits its
indexing panic — the caller does not reject the empty selection. -/
theorem empty_word_reaches_product_cex :
    parse_word [] = some [] ∧
    run_word_mode M.identity M.identity M.identity M.identity [] = some none := by
  constructor
  · rfl
  · rfl

/-- C8 amended: the callers do not reject empty selections (an empty word
string and a random length of 0 both reach product, which panics on the
empty sequence, modelled none); on every non-empty sequence product is the
left fold of mul seeded with the first element. -/
theorem product_foldl_spec :
    (∀ (m : M) (ms : List M), M.product (m :: ms) = some (ms.foldl M.mul m)) ∧
    M.product ([] : List M) = none ∧
    parse_word [] = some [] := by
  exact ⟨fun _ _ => rfl, rfl, rfl⟩

/-- C9: for a valid parameter, the product of each generator with its own
inverse is exactly the identity matrix in the exact model. -/
theorem product_generator_inverse (z : ℂ) (h1 : z ^ 2 - 1 ≠ 0)
    (h2 : rho_b_y z ^ 2 - 1 ≠ 0) :
    M.product [rho_a z, (rho_a z).inv] = some M.identity ∧
    M.product [rho_b z, (rho_b z).inv] = some M.identity := by
  constructor
  · show some ((rho_a z).mul (rho_a z).inv) = some M.identity
    rw [mul_inv_identity _ (det_rho_a z h1)]
  · show some ((rho_b z).mul (rho_b z).inv) = some M.identity
    rw [mul_inv_identity _ (det_rho_b z h2)]

/-- C9 witness: at z = 2 both validity conditions hold (z² − 1 = 3 and
y² − 1 = 1/3) and both generator-times-inverse products are the
identity. -/
theorem product_generator_inverse_witness :
    ((2 : ℂ) ^ 2 - 1 ≠ 0) ∧ (rho_b_y 2 ^ 2 - 1 ≠ 0) ∧
    M.product [rho_a 2, (rho_a 2).inv] = some M.identity ∧
    M.product [rho_b 2, (rho_b 2).inv] = some M.identity := by
  have h1 : (2 : ℂ) ^ 2 - 1 ≠ 0 := by norm_num
  have hs : csqrt ((2 : ℂ) ^ 2 - 1) ^ 2 = 3 := by
    rw [csqrt_sq]
    norm_num
  have h2 : rho_b_y 2 ^ 2 - 1 ≠ 0 := by
    simp only [rho_b_y, div_pow, hs]
    norm_num
  exact ⟨h1, h2, (product_generator_inverse 2 h1 h2).1,
    (product_generator_inverse 2 h1 h2).2⟩

theorem ER_lt_R_iff (l h : ℚ) :
    (ExtendedRational.R l < ExtendedRational.R h) ↔ l < h := Iff.rfl

theorem ER_R_lt_infinity (l : ℚ) :
    ExtendedRational.R l < ExtendedRational.Infinity := trivial

theorem ER_infinity_not_lt (e : ExtendedRational) :
    ¬ ExtendedRational.Infinity < e := id

theorem ER_numer_R (r : ℚ) : (ExtendedRational.R r).numer = r.num := rfl

theorem ER_denom_R (r : ℚ) : (ExtendedRational.R r).denom = (r.den : ℤ) := rfl

theorem ER_numer_infinity : ExtendedRational.Infinity.numer = 1 := rfl

theorem ER_denom_infinity : ExtendedRational.Infinity.denom = 0 := rfl

theorem ER_denom_nonneg (e : ExtendedRational) : 0 ≤ e.denom := by
  cases e with
  | R r =>
    show (0 : ℤ) ≤ (r.den : ℤ)
    exact_mod_cast Nat.zero_le r.den
  | Infinity => exact le_refl 0

theorem XL_pos {t : ℚ} {e : ExtendedRational} (h : e < ExtendedRational.R t) :
    1 ≤ XL t e := by
  cases e with
  | R l =>
    have hl : l < t := h
    have h2 := Rat.lt_def.mp hl
    simp only [XL, ExtendedRational.numer, ExtendedRational.denom]
    omega
  | Infinity => exact (ER_infinity_not_lt _ h).elim

theorem XH_pos {t : ℚ} {e : ExtendedRational} (h : ExtendedRational.R t < e) :
    1 ≤ XH t e := by
  cases e with
  | R u =>
    have hl : t < u := h
    have h2 := Rat.lt_def.mp hl
    simp only [XH, ExtendedRational.numer, ExtendedRational.denom]
    omega
  | Infinity =>
    have h2 := t.den_pos
    simp only [XH, ExtendedRational.numer, ExtendedRational.denom]
    omega

theorem divInt_num_mul (x y : ℤ) (hy : y ≠ 0) :
    (Rat.divInt x y).num * y = x * ((Rat.divInt x y).den : ℤ) := by
  have hq : ((Rat.divInt x y).num : ℚ) / ((Rat.divInt x y).den : ℚ) = (x : ℚ) / (y : ℚ) := by
    rw [Rat.num_div_den, Rat.divInt_eq_div]
  have hden : ((Rat.divInt x y).den : ℚ) ≠ 0 :=
    Nat.cast_ne_zero.mpr (Rat.den_ne_zero _)
  have hy2 : (y : ℚ) ≠ 0 := Int.cast_ne_zero.mpr hy
  rw [div_eq_div_iff hden hy2] at hq
  exact_mod_cast hq

theorem divInt_den_le (x y : ℤ) (hy : 0 < y) : ((Rat.divInt x y).den : ℤ) ≤ y :=
  Int.le_of_dvd hy (Rat.den_dvd x y)

theorem sbLoop_succ (fuel : ℕ) (q low high : ExtendedRational) (lm hm : M) :
    sbLoop (fuel + 1) q low high lm hm =
      if low.mediant high < q then sbLoop fuel q (low.mediant high) high (lm.mul hm) hm
      else if q < low.mediant high then sbLoop fuel q low (low.mediant high) lm (lm.mul hm)
      else some (lm.mul hm) := rfl

theorem mediant_step (t l : ℚ) (high : ExtendedRational) :
    ∃ m : ℚ,
      (ExtendedRational.R l).mediant high = ExtendedRational.R m ∧
      (m < t →
        XL t (ExtendedRational.R m) + XH t high ≤ XL t (ExtendedRational.R l)) ∧
      (t < m →
        XL t (ExtendedRational.R l) + XH t (ExtendedRational.R m) ≤ XH t high) := by
  have hld : 0 < (l.den : ℤ) := by exact_mod_cast l.den_pos
  have hdnn := ER_denom_nonneg high
  have hy0 : 0 < (l.den : ℤ) + high.denom := by omega
  refine ⟨Rat.divInt (l.num + high.numer) ((l.den : ℤ) + high.denom), ?_, ?_, ?_⟩
  · simp only [ExtendedRational.mediant, ER_numer_R, ER_denom_R]
    rw [if_neg hy0.ne']
  · intro hmt
    have hA := divInt_num_mul (l.num + high.numer) ((l.den : ℤ) + high.denom) hy0.ne'
    have hBle := divInt_den_le (l.num + high.numer) ((l.den : ℤ) + high.denom) hy0
    have hC : 0 < ((Rat.divInt (l.num + high.numer) ((l.den : ℤ) + high.denom)).den : ℤ) := by
      exact_mod_cast (Rat.divInt (l.num + high.numer) ((l.den : ℤ) + high.denom)).den_pos
    have h1 : 1 ≤ XL t (ExtendedRational.R (Rat.divInt (l.num + high.numer)
        ((l.den : ℤ) + high.denom))) := XL_pos hmt
    have hK1 : XL t (ExtendedRational.R (Rat.divInt (l.num + high.numer)
          ((l.den : ℤ) + high.denom))) * ((l.den : ℤ) + high.denom) =
        ((Rat.divInt (l.num + high.numer) ((l.den : ℤ) + high.denom)).den : ℤ) *
          (t.num * ((l.den : ℤ) + high.denom) - (l.num + high.numer) * (t.den : ℤ)) := by
      simp only [XL, ER_numer_R, ER_denom_R]
      linear_combination (-(t.den : ℤ)) * hA
    have hpos : 0 < XL t (ExtendedRational.R (Rat.divInt (l.num + high.numer)
        ((l.den : ℤ) + high.denom))) * ((l.den : ℤ) + high.denom) :=
      mul_pos (by linarith) hy0
    rw [hK1] at hpos
    have hW : 0 < t.num * ((l.den : ℤ) + high.denom) - (l.num + high.numer) * (t.den : ℤ) :=
      (mul_pos_iff_of_pos_left hC).mp hpos
    have hstep : XL t (ExtendedRational.R (Rat.divInt (l.num + high.numer)
          ((l.den : ℤ) + high.denom))) * ((l.den : ℤ) + high.denom) ≤
        (t.num * ((l.den : ℤ) + high.denom) - (l.num + high.numer) * (t.den : ℤ)) *
          ((l.den : ℤ) + high.denom) := by
      rw [hK1]
      calc ((Rat.divInt (l.num + high.numer) ((l.den : ℤ) + high.denom)).den : ℤ) *
            (t.num * ((l.den : ℤ) + high.denom) - (l.num + high.numer) * (t.den : ℤ)) =
          (t.num * ((l.den : ℤ) + high.denom) - (l.num + high.numer) * (t.den : ℤ)) *
            ((Rat.divInt (l.num + high.numer) ((l.den : ℤ) + high.denom)).den : ℤ) := by ring
        _ ≤ (t.num * ((l.den : ℤ) + high.denom) - (l.num + high.numer) * (t.den : ℤ)) *
            ((l.den : ℤ) + high.denom) := by
          exact mul_le_mul_of_nonneg_left hBle hW.le
    have hle2 := le_of_mul_le_mul_right hstep hy0
    have hWL : t.num * ((l.den : ℤ) + high.denom) - (l.num + high.numer) * (t.den : ℤ) =
        XL t (ExtendedRational.R l) - XH t high := by
      simp only [XL, XH, ER_numer_R, ER_denom_R]
      ring
    linarith [hle2, hWL.le, hWL.ge]
  · intro htm
    have hA := divInt_num_mul (l.num + high.numer) ((l.den : ℤ) + high.denom) hy0.ne'
    have hBle := divInt_den_le (l.num + high.numer) ((l.den : ℤ) + high.denom) hy0
    have hC : 0 < ((Rat.divInt (l.num + high.numer) ((l.den : ℤ) + high.denom)).den : ℤ) := by
      exact_mod_cast (Rat.divInt (l.num + high.numer) ((l.den : ℤ) + high.denom)).den_pos
    have h1 : 1 ≤ XH t (ExtendedRational.R (Rat.divInt (l.num + high.numer)
        ((l.den : ℤ) + high.denom))) := XH_pos htm
    have hK2 : XH t (ExtendedRational.R (Rat.divInt (l.num + high.numer)
          ((l.den : ℤ) + high.denom))) * ((l.den : ℤ) + high.denom) =
        ((Rat.divInt (l.num + high.numer) ((l.den : ℤ) + high.denom)).den : ℤ) *
          ((l.num + high.numer) * (t.den : ℤ) - t.num * ((l.den : ℤ) + high.denom)) := by
      simp only [XH, ER_numer_R, ER_denom_R]
      linear_combination ((t.den : ℤ)) * hA
    have hpos : 0 < XH t (ExtendedRational.R (Rat.divInt (l.num + high.numer)
        ((l.den : ℤ) + high.denom))) * ((l.den : ℤ) + high.denom) :=
      mul_pos (by linarith) hy0
    rw [hK2] at hpos
    have hW : 0 < (l.num + high.numer) * (t.den : ℤ) - t.num * ((l.den : ℤ) + high.denom) :=
      (mul_pos_iff_of_pos_left hC).mp hpos
    have hstep : XH t (ExtendedRational.R (Rat.divInt (l.num + high.numer)
          ((l.den : ℤ) + high.denom))) * ((l.den : ℤ) + high.denom) ≤
        ((l.num + high.numer) * (t.den : ℤ) - t.num * ((l.den : ℤ) + high.denom)) *
          ((l.den : ℤ) + high.denom) := by
      rw [hK2]
      calc ((Rat.divInt (l.num + high.numer) ((l.den : ℤ) + high.denom)).den : ℤ) *
            ((l.num + high.numer) * (t.den : ℤ) - t.num * ((l.den : ℤ) + high.denom)) =
          ((l.num + high.numer) * (t.den : ℤ) - t.num * ((l.den : ℤ) + high.denom)) *
            ((Rat.divInt (l.num + high.numer) ((l.den : ℤ) + high.denom)).den : ℤ) := by ring
        _ ≤ ((l.num + high.numer) * (t.den : ℤ) - t.num * ((l.den : ℤ) + high.denom)) *
            ((l.den : ℤ) + high.denom) := by
          exact mul_le_mul_of_nonneg_left hBle hW.le
    have hle2 := le_of_mul_le_mul_right hstep hy0
    have hWH : (l.num + high.numer) * (t.den : ℤ) - t.num * ((l.den : ℤ) + high.denom) =
        XH t high - XL t (ExtendedRational.R l) := by
      simp only [XL, XH, ER_numer_R, ER_denom_R]
      ring
    linarith [hle2, hWH.le, hWH.ge]

theorem sbLoop_isSome (t : ℚ) (n : ℕ) :
    ∀ (low high : ExtendedRational) (lm hm : M),
      low < ExtendedRational.R t → ExtendedRational.R t < high →
      XL t low + XH t high ≤ (n : ℤ) →
      (sbLoop (n + 1) (ExtendedRational.R t) low high lm hm).isSome = true := by
  induction n with
  | zero =>
    intro low high lm hm h1 h2 hle
    have hx := XL_pos h1
    have hh := XH_pos h2
    exfalso
    push_cast at hle
    omega
  | succ k ih =>
    intro low high lm hm h1 h2 hle
    cases low with
    | Infinity => exact (ER_infinity_not_lt _ h1).elim
    | R l =>
      obtain ⟨m, hmed, hdec1, hdec2⟩ := mediant_step t l high
      have hXLl : 1 ≤ XL t (ExtendedRational.R l) := XL_pos h1
      have hXHh : 1 ≤ XH t high := XH_pos h2
      push_cast at hle
      rcases lt_trichotomy m t with hmt | hmt | hmt
      · rw [sbLoop_succ, hmed,
          if_pos (show ExtendedRational.R m < ExtendedRational.R t from hmt)]
        refine ih (ExtendedRational.R m) high (lm.mul hm) hm hmt h2 ?_
        have hd := hdec1 hmt
        linarith only [hd, hle, hXHh]
      · have hne1 : ¬ (ExtendedRational.R m < ExtendedRational.R t) := by
          show ¬ m < t
          rw [hmt]
          exact lt_irrefl t
        have hne2 : ¬ (ExtendedRational.R t < ExtendedRational.R m) := by
          show ¬ t < m
          rw [hmt]
          exact lt_irrefl t
        rw [sbLoop_succ, hmed, if_neg hne1, if_neg hne2]
        rfl
      · have hne1 : ¬ (ExtendedRational.R m < ExtendedRational.R t) := by
          show ¬ m < t
          exact not_lt.2 hmt.le
        rw [sbLoop_succ, hmed, if_neg hne1,
          if_pos (show ExtendedRational.R t < ExtendedRational.R m from hmt)]
        refine ih (ExtendedRational.R l) (ExtendedRational.R m) lm (lm.mul hm) h1 hmt ?_
        have hd := hdec2 hmt
        linarith only [hd, hle, hXLl]

theorem sbLoop_zero_none (n : ℕ) :
    ∀ (high : ExtendedRational) (lm hm : M), posER high →
      sbLoop n (ExtendedRational.R 0) (ExtendedRational.R 0) high lm hm = none := by
  induction n with
  | zero =>
    intro high lm hm hp
    rfl
  | succ k ih =>
    intro high lm hm hp
    have hmed : ∃ m : ℚ,
        (ExtendedRational.R 0).mediant high = ExtendedRational.R m ∧ 0 < m := by
      cases high with
      | Infinity =>
        refine ⟨1, ?_, one_pos⟩
        simp only [ExtendedRational.mediant, ER_numer_R, ER_denom_R,
          ER_numer_infinity, ER_denom_infinity]
        norm_num [Rat.divInt_eq_div]
      | R u =>
        have hu : 0 < u := hp
        have hden : ((0 : ℚ).den : ℤ) + (u.den : ℤ) ≠ 0 := by
          have h2 : 0 < (u.den : ℤ) := by exact_mod_cast u.den_pos
          have h3 : 0 < ((0 : ℚ).den : ℤ) := by exact_mod_cast (0 : ℚ).den_pos
          omega
        refine ⟨Rat.divInt ((0 : ℚ).num + u.num) (((0 : ℚ).den : ℤ) + (u.den : ℤ)), ?_, ?_⟩
        · simp only [ExtendedRational.mediant, ER_numer_R, ER_denom_R]
          rw [if_neg hden]
        · rw [Rat.divInt_eq_div]
          apply div_pos
          · have hnum : 0 < u.num := Rat.num_pos.mpr hu
            have h0 : (0 : ℚ).num = 0 := rfl
            rw [h0, zero_add]
            exact_mod_cast hnum
          · have h2 : 0 < (u.den : ℤ) := by exact_mod_cast u.den_pos
            have h3 : 0 < ((0 : ℚ).den : ℤ) := by exact_mod_cast (0 : ℚ).den_pos
            push_cast
            exact_mod_cast by omega
    obtain ⟨m, hmedEq, hm0⟩ := hmed
    rw [sbLoop_succ, hmedEq,
      if_neg (show ¬ (ExtendedRational.R m < ExtendedRational.R 0) from not_lt.2 hm0.le),
      if_pos (show ExtendedRational.R 0 < ExtendedRational.R m from hm0)]
    exact ih (ExtendedRational.R m) lm (lm.mul hm) hm0

/-- C2 counterexample: at the target pair p = 0, q = 1 — the rational 0,
a pair of non-negative integers the claim covers — the locator never
terminates: every mediant formed from low = 0 is strictly positive, the
high bound keeps shrinking, and no amount of fuel makes the loop return. -/
theorem stern_brocot_zero_diverges :
    ¬ ∃ fuel,
      (stern_brocot_word fuel (mkTarget 0 1) M.identity M.identity).isSome = true := by
  rintro ⟨fuel, hf⟩
  have h01 : mkTarget 0 1 = ExtendedRational.R 0 := by
    simp only [mkTarget, if_neg one_ne_zero]
    norm_num [Rat.divInt_eq_div]
  rw [h01] at hf
  have hne : ¬ ((0 : ℚ) = 1) := by norm_num
  simp only [stern_brocot_word, if_neg hne] at hf
  rw [sbLoop_zero_none fuel ExtendedRational.Infinity M.identity M.identity trivial] at hf
  simp at hf

/-- C2 amended: the Stern-Brocot locator terminates for every target pair
(p, q) of non-negative integers with p at least 1 or q = 0 (every positive
rational target and Infinity); the sole excluded family, p = 0 with q
nonzero (target 0), makes the loop run forever. -/
theorem stern_brocot_terminates (p q : ℕ) (a b : M) (h : 1 ≤ p ∨ q = 0) :
    ∃ fuel, (stern_brocot_word fuel (mkTarget p q) a b).isSome = true := by
  by_cases hq : q = 0
  · refine ⟨1, ?_⟩
    simp [mkTarget, hq, stern_brocot_word]
  · have hp : 1 ≤ p := h.resolve_right hq
    have htarget : mkTarget p q = ExtendedRational.R (Rat.divInt (p : ℤ) (q : ℤ)) := by
      simp [mkTarget, hq]
    have ht0 : 0 < Rat.divInt (p : ℤ) (q : ℤ) := by
      rw [Rat.divInt_eq_div]
      apply div_pos
      · exact_mod_cast Nat.pos_of_ne_zero (by omega)
      · exact_mod_cast Nat.pos_of_ne_zero hq
    by_cases h1 : Rat.divInt (p : ℤ) (q : ℤ) = 1
    · refine ⟨1, ?_⟩
      rw [htarget]
      simp [stern_brocot_word, h1]
    · refine ⟨((Rat.divInt (p : ℤ) (q : ℤ)).num + ((Rat.divInt (p : ℤ) (q : ℤ)).den : ℤ)).toNat
        + 1, ?_⟩
      rw [htarget]
      simp only [stern_brocot_word, if_neg h1]
      apply sbLoop_isSome
      · show (0 : ℚ) < Rat.divInt (p : ℤ) (q : ℤ)
        exact ht0
      · exact trivial
      · have hnum : 0 < (Rat.divInt (p : ℤ) (q : ℤ)).num := Rat.num_pos.mpr ht0
        have hden : 0 < ((Rat.divInt (p : ℤ) (q : ℤ)).den : ℤ) := by
          exact_mod_cast (Rat.divInt (p : ℤ) (q : ℤ)).den_pos
        simp only [XL, XH, ER_numer_R, ER_denom_R, ER_numer_infinity, ER_denom_infinity,
          Rat.num_ofNat, Rat.den_ofNat]
        omega

/-- C2 witness: the target pair p = 2, q = 3 satisfies the amended
hypothesis and the locator terminates on it. -/
theorem stern_brocot_terminates_witness :
    (1 ≤ 2 ∨ 3 = 0) ∧
    ∃ fuel, (stern_brocot_word fuel (mkTarget 2 3) M.identity M.identity).isSome = true :=
  ⟨Or.inl (by norm_num),
    stern_brocot_terminates 2 3 M.identity M.identity (Or.inl (by norm_num))⟩

theorem rat_mul_den (r : ℚ) : r * (r.den : ℚ) = (r.num : ℚ) := by
  have hden : ((r.den : ℚ)) ≠ 0 := Nat.cast_ne_zero.mpr (Rat.den_ne_zero r)
  calc r * (r.den : ℚ) = ((r.num : ℚ) / (r.den : ℚ)) * (r.den : ℚ) := by
        rw [Rat.num_div_den]
    _ = (r.num : ℚ) := div_mul_cancel₀ _ hden

/-- C10: for extended rationals e strictly below f, the Farey mediant lies
strictly between them in the extended-rational order with Infinity as the
unique maximum. -/
theorem mediant_strictly_between (e f : ExtendedRational) (h : e < f) :
    e < e.mediant f ∧ e.mediant f < f := by
  cases e with
  | Infinity => exact (ER_infinity_not_lt _ h).elim
  | R l =>
    have hldQ : (0 : ℚ) < (l.den : ℚ) := by exact_mod_cast l.den_pos
    cases f with
    | Infinity =>
      have hden : ((l.den : ℤ) + 0) ≠ 0 := by
        have h2 : 0 < (l.den : ℤ) := by exact_mod_cast l.den_pos
        omega
      constructor
      · simp only [ExtendedRational.mediant, ER_numer_R, ER_denom_R,
          ER_numer_infinity, ER_denom_infinity]
        rw [if_neg hden]
        show l < Rat.divInt (l.num + 1) ((l.den : ℤ) + 0)
        rw [Rat.divInt_eq_div]
        push_cast
        rw [lt_div_iff₀ (by linarith)]
        have e1 := rat_mul_den l
        linarith
      · simp only [ExtendedRational.mediant, ER_numer_R, ER_denom_R,
          ER_numer_infinity, ER_denom_infinity]
        rw [if_neg hden]
        exact trivial
    | R u =>
      have hlu : l < u := h
      have hudQ : (0 : ℚ) < (u.den : ℚ) := by exact_mod_cast u.den_pos
      have hden : ((l.den : ℤ) + (u.den : ℤ)) ≠ 0 := by
        have h2 : 0 < (l.den : ℤ) := by exact_mod_cast l.den_pos
        have h3 : 0 < (u.den : ℤ) := by exact_mod_cast u.den_pos
        omega
      have hyQ : (0 : ℚ) < (l.den : ℚ) + (u.den : ℚ) := by linarith
      have e1 := rat_mul_den l
      have e4 := rat_mul_den u
      have e2 : l * (u.den : ℚ) < (u.num : ℚ) := by
        have h3 : l < (u.num : ℚ) / (u.den : ℚ) := by
          rw [Rat.num_div_den]
          exact hlu
        rw [lt_div_iff₀ hudQ] at h3
        exact h3
      have e3 : (l.num : ℚ) < u * (l.den : ℚ) := by
        have h3 : (l.num : ℚ) / (l.den : ℚ) < u := by
          rw [Rat.num_div_den]
          exact hlu
        rw [div_lt_iff₀ hldQ] at h3
        exact h3
      constructor
      · simp only [ExtendedRational.mediant, ER_numer_R, ER_denom_R]
        rw [if_neg hden]
        show l < Rat.divInt (l.num + u.num) ((l.den : ℤ) + (u.den : ℤ))
        rw [Rat.divInt_eq_div]
        push_cast
        rw [lt_div_iff₀ hyQ]
        nlinarith [e1, e2]
      · simp only [ExtendedRational.mediant, ER_numer_R, ER_denom_R]
        rw [if_neg hden]
        show Rat.divInt (l.num + u.num) ((l.den : ℤ) + (u.den : ℤ)) < u
        rw [Rat.divInt_eq_div]
        push_cast
        rw [div_lt_iff₀ hyQ]
        nlinarith [e3, e4]

/-- C10 witness: the bounds 0 and Infinity satisfy 0 < Infinity, and the
mediant lies strictly between them. -/
theorem mediant_strictly_between_witness :
    (ExtendedRational.R 0 < ExtendedRational.Infinity) ∧
    (ExtendedRational.R 0 < (ExtendedRational.R 0).mediant ExtendedRational.Infinity ∧
      (ExtendedRational.R 0).mediant ExtendedRational.Infinity < ExtendedRational.Infinity) :=
  ⟨trivial, mediant_strictly_between (ExtendedRational.R 0) ExtendedRational.Infinity trivial⟩

/-- C4: structural characterization of the locator.  Infinity returns
generator b at once and the rational 1 returns generator a at once; any
other rational target enters the loop at low = 0 with matrix a and
high = Infinity with matrix b; the mediant of a finite rational with
Infinity is (numerator + 1) over the same denominator; and each loop step
compares the mediant with the target: below the target it replaces low and
multiplies the low matrix by the high matrix on the right, above the
target it replaces high and sets the high matrix to the same product, and
at the target it returns that product. -/
theorem stern_brocot_structure :
    (∀ (fuel : ℕ) (a b : M),
      stern_brocot_word fuel ExtendedRational.Infinity a b = some b) ∧
    (∀ (fuel : ℕ) (a b : M),
      stern_brocot_word fuel (ExtendedRational.R 1) a b = some a) ∧
    (∀ (fuel : ℕ) (x : ℚ) (a b : M), x ≠ 1 →
      stern_brocot_word fuel (ExtendedRational.R x) a b =
        sbLoop fuel (ExtendedRational.R x) (ExtendedRational.R 0)
          ExtendedRational.Infinity a b) ∧
    (∀ l : ℚ, (ExtendedRational.R l).mediant ExtendedRational.Infinity =
      ExtendedRational.R (Rat.divInt (l.num + 1) (l.den : ℤ))) ∧
    (∀ (fuel : ℕ) (q low high : ExtendedRational) (lm hm : M),
      sbLoop (fuel + 1) q low high lm hm =
        if low.mediant high < q then
          sbLoop fuel q (low.mediant high) high (lm.mul hm) hm
        else if q < low.mediant high then
          sbLoop fuel q low (low.mediant high) lm (lm.mul hm)
        else some (lm.mul hm)) := by
  refine ⟨fun _ _ _ => rfl, fun fuel a b => ?_, fun fuel x a b hx => ?_, fun l => ?_,
    fun _ _ _ _ _ _ => rfl⟩
  · simp [stern_brocot_word]
  · simp [stern_brocot_word, hx]
  · have hden : ((l.den : ℤ) + 0) ≠ 0 := by
      have h2 : 0 < (l.den : ℤ) := by exact_mod_cast l.den_pos
      omega
    simp only [ExtendedRational.mediant, ER_numer_R, ER_denom_R,
      ER_numer_infinity, ER_denom_infinity]
    rw [if_neg hden, add_zero]

/-- C4 witness: at the non-1 rational target 2 the locator hands control to
the loop started at low = 0 and high = Infinity, and at Infinity it
returns the b matrix at once. -/
theorem stern_brocot_structure_witness :
    ((2 : ℚ) ≠ 1) ∧
    stern_brocot_word 0 (ExtendedRational.R 2) M.identity M.identity =
      sbLoop 0 (ExtendedRational.R 2) (ExtendedRational.R 0) ExtendedRational.Infinity
        M.identity M.identity ∧
    stern_brocot_word 0 ExtendedRational.Infinity M.identity M.identity =
      some M.identity :=
  ⟨by norm_num, stern_brocot_structure.2.2.1 0 2 M.identity M.identity (by norm_num),
    stern_brocot_structure.1 0 M.identity M.identity⟩
